import Mathlib

/-!
Verification of the pairwise variant-calling module of MicroGenome-Analyzer-Pro
(`src/core/variant/variant_engine.py`, class `VariantWorker`).

The embedding below translates the Python source into Lean:
aligned rows are `List Char`; Python string slicing `s[a:b]` with clamped
non-negative bounds is `pySlice`; the worker's fallible steps (file reads,
the external aligner, the alignment-to-FASTA rendering) are `Option` values,
with `none` standing for the exceptional outcome that the source catches.
Python computes the transition/transversion ratio on IEEE-754 binary64
floats; this is modelled exactly, over ℚ, by `toDouble` (round to nearest,
ties to even, 53-bit significand) for the float division and by `pyRound2`
(correctly rounded two-decimal value of the double, returned as the nearest
double) for `round(x, 2)`, matching CPython's `long_true_divide` and
`double_round`.
-/

/-- Statistics record attached by `call_variants` to the first variant:
the `stats` dict `{ts, tv, ratio}` of the source. -/
structure Stats where
  ts : Nat
  tv : Nat
  ratio : ℚ
deriving Repr, DecidableEq

/-- One variant record, the dict
`{pos, ref, alt, type, ctx_ref, ctx_query}` built in the loop of
`call_variants`, plus the optional `stats` entry that the source adds to the
first record only (`variants[0]['stats'] = ...`). -/
structure Variant where
  pos : Nat
  ref : Char
  alt : Char
  vtype : String
  ctx_ref : List Char
  ctx_query : List Char
  stats : Option Stats
deriving Repr, DecidableEq, Inhabited

/-- Python slice `s[a:b]` for `0 ≤ a` and `0 ≤ b` (the source's bounds are
already clamped with `max`/`min`). -/
def pySlice (s : List Char) (a b : Nat) : List Char :=
  (s.drop a).take (b - a)

/-- Round a rational to the nearest integer, ties to even: the rounding
used both by IEEE-754 round-to-nearest and by the correctly rounded
decimal conversion inside CPython's `round`. -/
def roundHalfEven (x : ℚ) : ℤ :=
  if x - Int.floor x < 1 / 2 then Int.floor x
  else if x - Int.floor x > 1 / 2 then Int.floor x + 1
  else if Int.floor x % 2 = 0 then Int.floor x else Int.floor x + 1

/-- The exact value of the IEEE-754 binary64 double nearest to `x` (round
to nearest, ties to even, 53-bit significand), as a rational.  The exponent
is unbounded, so overflow and subnormal loss are not modelled; every value
this module can feed in (quotients and two-decimal values of variant counts
of an alignment) lies far inside the normal binary64 range, where this
agrees with binary64 exactly. -/
def toDouble (x : ℚ) : ℚ :=
  if x = 0 then 0
  else (roundHalfEven (x * 2 ^ ((52 : ℤ) - Int.log 2 |x|)) : ℚ)
    * 2 ^ (Int.log 2 |x| - 52)

/-- CPython `round(x, 2)` on a float whose exact value is `x`: the
two-decimal value nearest `x` (ties to even on the exact value of the
double, as `_Py_dg_dtoa` rounds correctly), converted back to the nearest
double. -/
def pyRound2 (x : ℚ) : ℚ := toDouble ((roundHalfEven (100 * x) : ℚ) / 100)

/-- `round(ts/tv, 2) if tv > 0 else 0` (line 121 of the source): `ts/tv` is
CPython's correctly rounded float division of two ints, and `round(·, 2)`
is `pyRound2`. -/
def ratioOf (ts tv : Nat) : ℚ :=
  if 0 < tv then pyRound2 (toDouble ((ts : ℚ) / (tv : ℚ))) else 0

lemma toDouble_zero : toDouble 0 = 0 := by
  unfold toDouble
  rw [if_pos rfl]

lemma roundHalfEven_zero : roundHalfEven 0 = 0 := by
  unfold roundHalfEven
  norm_num

lemma pyRound2_zero : pyRound2 0 = 0 := by
  unfold pyRound2
  rw [mul_zero, roundHalfEven_zero]
  norm_num [toDouble_zero]

lemma ratioOf_zero_ts (tv : Nat) : ratioOf 0 tv = 0 := by
  unfold ratioOf
  by_cases h : 0 < tv
  · rw [if_pos h]
    norm_num [toDouble_zero, pyRound2_zero]
  · rw [if_neg h]

/-- `v_type = "SNP"; if r == '-': v_type = "Insertion"; elif q == '-':
v_type = "Deletion"` (lines 95-97). -/
def vType (r q : Char) : String :=
  if r = '-' then "Insertion" else if q = '-' then "Deletion" else "SNP"

/-- `r in "AG"`. -/
def inAG (c : Char) : Bool := c == 'A' || c == 'G'

/-- `r in "CT"`. -/
def inCT (c : Char) : Bool := c == 'C' || c == 'T'

/-- The transition test of line 101:
`(r in "AG" and q in "AG") or (r in "CT" and q in "CT")`. -/
def isTransition (r q : Char) : Bool :=
  (inAG r && inAG q) || (inCT r && inCT q)

/-- `ts` update for one mismatching column: `if v_type == "SNP"` and the
transition test holds, `ts += 1` (lines 100-101). -/
def tsStep (r q : Char) (ts : Nat) : Nat :=
  if vType r q == "SNP" && isTransition r q then ts + 1 else ts

/-- `tv` update for one mismatching column: `if v_type == "SNP"` and the
transition test fails, `tv += 1` (lines 100-102). -/
def tvStep (r q : Char) (tv : Nat) : Nat :=
  if vType r q == "SNP" && !isTransition r q then tv + 1 else tv

/-- The variant record appended at 0-based column `i` holding characters
`r`/`q` (lines 104-117).  `start = max(0, i - 10)` is Nat subtraction;
`end = min(len(ref_aligned), i + 11)` — note the source uses the reference
row's length for the query slice too. -/
def mkVariant (ra qa : List Char) (i : Nat) (r q : Char) : Variant :=
  { pos := i + 1
    ref := r
    alt := q
    vtype := vType r q
    ctx_ref := pySlice ra (i - 10) (min ra.length (i + 11))
    ctx_query := pySlice qa (i - 10) (min ra.length (i + 11))
    stats := none }

/-- The loop of lines 93-117 over `enumerate(zip(ref_aligned, query_aligned))`:
columns with `r == q` are skipped; every mismatching column appends a record
and updates the `ts`/`tv` counters.  Returns (variants, ts, tv). -/
def colScan (ra qa : List Char) : List (Nat × Char × Char) → List Variant × Nat × Nat
  | [] => ([], 0, 0)
  | (i, r, q) :: rest =>
    let t := colScan ra qa rest
    if r == q then t
    else (mkVariant ra qa i r q :: t.1, tsStep r q t.2.1, tvStep r q t.2.2)

/-- `if variants: variants[0]['stats'] = {'ts': ts, 'tv': tv, 'ratio': ...}`
(lines 120-122): the statistics are bolted onto the first record when the
list is non-empty. -/
def attachStats (vs : List Variant) (ts tv : Nat) : List Variant :=
  match vs with
  | [] => []
  | v :: rest => { v with stats := some { ts := ts, tv := tv, ratio := ratioOf ts tv } } :: rest

/-- `call_variants` on an alignment already split into its two rows:
scan the zipped, enumerated columns, then attach the statistics to the first
record (lines 89-122). -/
def call_variants (ra qa : List Char) : List Variant :=
  let t := colScan ra qa ((ra.zip qa).enum)
  attachStats t.1 t.2.1 t.2.2

/-- `call_variants` from the rendered FASTA lines: the guard
`if len(lines) >= 4` of line 85 with `ref_aligned = lines[1]` and
`query_aligned = lines[3]`; otherwise no variant is appended and the empty
list is returned. -/
def call_variants_lines (lines : List (List Char)) : List Variant :=
  if 4 ≤ lines.length then call_variants (lines.getD 1 []) (lines.getD 3 []) else []

/-- The whole body of `call_variants` including its `try`/`except`
(lines 81-127): `rendered = none` models `format(alignment, "fasta")`
raising before any record is accumulated, in which case the `except` arm
returns the accumulated (empty) list. -/
def call_variants_caught (rendered : Option (List (List Char))) : List Variant :=
  match rendered with
  | none => []
  | some lines => call_variants_lines lines

/-- A FASTA header line: one starting with the character `>`. -/
def isHeader (l : String) : Bool := l.data.headD ' ' == '>'

/-- `str.upper()`: uppercase every character. -/
def pyUpper (s : String) : String := String.mk (s.data.map Char.toUpper)

/-- Modelled from the spec: the first-record FASTA parse performed by the
`Bio.SeqIO.parse(f, "fasta")` library call of line 71, which is not part of
this repository.  Per the spec, lines starting with `>` are headers and all
subsequent non-header lines are concatenated until the next header or
end-of-file; text before the first header is not part of any record; a file
with no header line has no record. -/
def firstFastaRecord (lines : List String) : Option String :=
  match lines.dropWhile (fun l => !isHeader l) with
  | [] => none
  | _ :: body => some (String.join (body.takeWhile (fun l => !isHeader l)))

/-- `read_fasta` (lines 67-74).  The file system is abstracted as a partial
map from paths to line lists; `fs path = none` covers both the
`os.path.exists` failure and an unreadable file (the bare `except` arm); a
parsed record is uppercased. -/
def read_fasta (fs : String → Option (List String)) (path : String) : Option String :=
  match fs path with
  | none => none
  | some lines => (firstFastaRecord lines).map pyUpper

/-- Outcome of one `run` invocation: `success` carries the list emitted on
`result_signal` (followed by `finished_signal(True)`); `failure` carries the
error log message emitted before `finished_signal(False)`. -/
inductive RunResult where
  | success : List Variant → RunResult
  | failure : String → RunResult
deriving Repr, DecidableEq

/-- `run` (lines 17-65).  The aligner (lines 39-48 plus the FASTA rendering
of line 82) is abstracted as a function from the two truncated sequences to
`none` when `aligner.align` raises (caught by the `except` of line 61, which
emits `finished_signal(False)`), or `some rendered` where `rendered` is the
`Option`-modelled rendering consumed by `call_variants`.  The guard
`if not ref_seq or not query_seq` of line 27 fires when a read returned
`None` or an empty string; `[:50000]` is the truncation of line 47. -/
def runWorker (aligner : String → String → Option (Option (List (List Char))))
    (fs : String → Option (List String)) (query_file ref_file : String) : RunResult :=
  match read_fasta fs ref_file, read_fasta fs query_file with
  | some ref_seq, some query_seq =>
    if ref_seq.isEmpty || query_seq.isEmpty then
      RunResult.failure "Could not read sequences"
    else
      match aligner (ref_seq.take 50000) (query_seq.take 50000) with
      | none => RunResult.failure "Critical Error"
      | some rendered => RunResult.success (call_variants_caught rendered)
  | _, _ => RunResult.failure "Could not read sequences"

example : call_variants (String.toList "ATGC") (String.toList "ATGA") =
    [{ pos := 4, ref := 'C', alt := 'A', vtype := "SNP",
       ctx_ref := String.toList "ATGC", ctx_query := String.toList "ATGA",
       stats := some { ts := 0, tv := 1, ratio := 0 } }] := by
  simp [call_variants, colScan, attachStats, mkVariant, pySlice, vType,
    isTransition, inAG, inCT, tsStep, tvStep, ratioOf_zero_ts, List.zip, List.enum]

example : call_variants (String.toList "AAGC") (String.toList "AGGC") =
    [{ pos := 2, ref := 'A', alt := 'G', vtype := "SNP",
       ctx_ref := String.toList "AAGC", ctx_query := String.toList "AGGC",
       stats := some { ts := 1, tv := 0, ratio := 0 } }] := by decide

example : read_fasta (fun p => if p = "a.fa" then some [">h", "acg", "t"] else none) "a.fa"
    = some "ACGT" := by decide

/-- A variant record with its `stats` entry removed; used to compare records
while ignoring the opportunistically attached statistics. -/
def eraseStats (v : Variant) : Variant := { v with stats := none }

lemma colScan_fst (ra qa : List Char) (L : List (Nat × Char × Char)) :
    (colScan ra qa L).1
      = (L.filter fun p => p.2.1 != p.2.2).map fun p => mkVariant ra qa p.1 p.2.1 p.2.2 := by
  induction L with
  | nil => rfl
  | cons p rest ih =>
    obtain ⟨i, r, q⟩ := p
    by_cases hrq : r = q
    · simp [colScan, hrq, ih]
    · simp [colScan, hrq, ih]

lemma colScan_ts (ra qa : List Char) (L : List (Nat × Char × Char)) :
    (colScan ra qa L).2.1
      = L.countP fun p =>
          (p.2.1 != p.2.2) && (vType p.2.1 p.2.2 == "SNP" && isTransition p.2.1 p.2.2) := by
  induction L with
  | nil => rfl
  | cons p rest ih =>
    obtain ⟨i, r, q⟩ := p
    by_cases hrq : r = q
    · simp [colScan, hrq, ih, List.countP_cons]
    · by_cases hts : (vType r q == "SNP" && isTransition r q) = true
      · simp [colScan, hrq, tsStep, hts, ih, List.countP_cons]
      · simp [colScan, hrq, tsStep, hts, ih, List.countP_cons]

lemma colScan_tv (ra qa : List Char) (L : List (Nat × Char × Char)) :
    (colScan ra qa L).2.2
      = L.countP fun p =>
          (p.2.1 != p.2.2) && (vType p.2.1 p.2.2 == "SNP" && !isTransition p.2.1 p.2.2) := by
  induction L with
  | nil => rfl
  | cons p rest ih =>
    obtain ⟨i, r, q⟩ := p
    by_cases hrq : r = q
    · simp [colScan, hrq, ih, List.countP_cons]
    · by_cases hts : (vType r q == "SNP" && !isTransition r q) = true
      · simp [colScan, hrq, tvStep, hts, ih, List.countP_cons]
      · simp [colScan, hrq, tvStep, hts, ih, List.countP_cons]

lemma attachStats_map_pos (vs : List Variant) (ts tv : Nat) :
    (attachStats vs ts tv).map Variant.pos = vs.map Variant.pos := by
  cases vs <;> rfl

lemma attachStats_map_eraseStats (vs : List Variant) (ts tv : Nat) :
    (attachStats vs ts tv).map eraseStats = vs.map eraseStats := by
  cases vs <;> rfl

lemma mem_attachStats (vs : List Variant) (ts tv : Nat) (v : Variant)
    (hv : v ∈ attachStats vs ts tv) : ∃ w ∈ vs, eraseStats v = eraseStats w := by
  cases vs with
  | nil => simp [attachStats] at hv
  | cons w rest =>
    simp only [attachStats, List.mem_cons] at hv
    rcases hv with h | h
    · exact ⟨w, List.mem_cons_self w rest, by rw [h]; rfl⟩
    · exact ⟨v, List.mem_cons_of_mem w h, rfl⟩

lemma eraseStats_fields (v w : Variant) (h : eraseStats v = eraseStats w) :
    v.pos = w.pos ∧ v.ref = w.ref ∧ v.alt = w.alt ∧ v.vtype = w.vtype ∧
      v.ctx_ref = w.ctx_ref ∧ v.ctx_query = w.ctx_query := by
  cases v
  cases w
  simp only [eraseStats, Variant.mk.injEq] at h
  simp_all

lemma countP_attachStats (vs : List Variant) (ts tv : Nat) (p : Variant → Bool)
    (hp : ∀ v s, p { v with stats := s } = p v) :
    (attachStats vs ts tv).countP p = vs.countP p := by
  cases vs with
  | nil => rfl
  | cons w rest => simp [attachStats, List.countP_cons, hp]

lemma enumFrom_zip_filter_fst :
    ∀ (l1 : List Char) (l2 : List Char) (n : Nat), l1.length = l2.length →
      (((l1.zip l2).enumFrom n).filter fun p => p.2.1 != p.2.2).map Prod.fst
        = (List.range' n l1.length).filter
            fun i => l1.getD (i - n) ' ' != l2.getD (i - n) ' '
  | [], l2, n, _ => by simp
  | r :: l1, [], n, h => by simp at h
  | r :: l1, q :: l2, n, h => by
    have hl : l1.length = l2.length := by simpa using h
    have ih := enumFrom_zip_filter_fst l1 l2 (n + 1) hl
    have hcongr : ∀ i ∈ List.range' (n + 1) l1.length,
        ((r :: l1).getD (i - n) ' ' != (q :: l2).getD (i - n) ' ')
          = (l1.getD (i - (n + 1)) ' ' != l2.getD (i - (n + 1)) ' ') := by
      intro i hi
      have h1 : n + 1 ≤ i := (List.mem_range'_1.mp hi).1
      have h2 : i - n = (i - (n + 1)) + 1 := by omega
      rw [h2, List.getD_cons_succ, List.getD_cons_succ]
    cases hb : (r != q) with
    | false =>
      simp only [List.zip_cons_cons, List.enumFrom_cons, List.length_cons, List.range'_succ,
        List.filter_cons, hb, Nat.sub_self, List.getD_cons_zero]
      rw [List.filter_congr hcongr, ← ih]
      simp
    | true =>
      simp only [List.zip_cons_cons, List.enumFrom_cons, List.length_cons, List.range'_succ,
        List.filter_cons, hb, Nat.sub_self, List.getD_cons_zero, List.map_cons]
      rw [List.filter_congr hcongr, ← ih]
      simp

lemma mem_enum_pair (l : List (Char × Char)) (i : Nat) (p : Char × Char)
    (h : (i, p) ∈ l.enum) : l[i]? = some p := by
  rw [List.mem_iff_getElem?] at h
  obtain ⟨m, hm⟩ := h
  rw [List.getElem?_enum] at hm
  cases he : l[m]? with
  | none => rw [he] at hm; simp at hm
  | some a =>
    rw [he] at hm
    simp only [Option.map_some'] at hm
    obtain ⟨h1, h2⟩ := Prod.mk.injEq .. ▸ (Option.some.injEq .. ▸ hm)
    rw [← h1, he, h2]

lemma mem_call_variants_core (ra qa : List Char) (h : ra.length = qa.length)
    (v : Variant) (hv : v ∈ call_variants ra qa) :
    ∃ i, i < ra.length ∧ v.pos = i + 1 ∧ v.ref = ra.getD i ' ' ∧ v.alt = qa.getD i ' ' ∧
      v.vtype = vType (ra.getD i ' ') (qa.getD i ' ') ∧
      v.ctx_ref = pySlice ra (i - 10) (min ra.length (i + 11)) ∧
      v.ctx_query = pySlice qa (i - 10) (min ra.length (i + 11)) := by
  simp only [call_variants] at hv
  obtain ⟨w, hw, hew⟩ := mem_attachStats _ _ _ v hv
  rw [colScan_fst] at hw
  simp only [List.mem_map, List.mem_filter] at hw
  obtain ⟨p, ⟨hpmem, hpne⟩, hpw⟩ := hw
  obtain ⟨i, r, q⟩ := p
  have hzip := mem_enum_pair (ra.zip qa) i (r, q) hpmem
  have hilt : i < (ra.zip qa).length := by
    rcases List.getElem?_eq_some.mp hzip with ⟨hlt, _⟩
    exact hlt
  have hzlen : (ra.zip qa).length = ra.length := by
    rw [List.length_zip, h, Nat.min_self]
  have hi : i < ra.length := hzlen ▸ hilt
  have hiq : i < qa.length := h ▸ hi
  have hget : (ra.zip qa)[i] = (r, q) := by
    rcases List.getElem?_eq_some.mp hzip with ⟨hlt, hg⟩
    exact hg
  rw [List.getElem_zip] at hget
  have hr : ra.getD i ' ' = r := by
    rw [List.getD_eq_getElem ra ' ' hi]
    exact congrArg Prod.fst hget
  have hq : qa.getD i ' ' = q := by
    rw [List.getD_eq_getElem qa ' ' hiq]
    exact congrArg Prod.snd hget
  subst hpw
  obtain ⟨h1, h2, h3, h4, h5, h6⟩ := eraseStats_fields v _ hew
  refine ⟨i, hi, ?_, ?_, ?_, ?_, ?_, ?_⟩
  · exact h1
  · rw [hr]; exact h2
  · rw [hq]; exact h3
  · rw [hr, hq]; exact h4
  · exact h5
  · exact h6

lemma zip_self (s : List Char) : s.zip s = s.map fun c => (c, c) := by
  induction s with
  | nil => rfl
  | cons c t ih => simp [ih]

/-- C1: for equal-length rows, `call_variants` emits exactly one record per
mismatching 0-based column, in ascending order with 1-based position, and
classifies the record as Insertion when the reference character is the gap,
Deletion when the query character (and not the reference character) is the
gap, and substitution ("SNP" in the source) otherwise. -/
theorem variant_extraction_columns (ra qa : List Char) (h : ra.length = qa.length) :
    (call_variants ra qa).map Variant.pos
      = ((List.range ra.length).filter fun i => ra.getD i ' ' != qa.getD i ' ').map
          (fun i => i + 1)
    ∧ ∀ v ∈ call_variants ra qa,
        v.ref = ra.getD (v.pos - 1) ' ' ∧ v.alt = qa.getD (v.pos - 1) ' ' ∧
        v.vtype = (if ra.getD (v.pos - 1) ' ' = '-' then "Insertion"
          else if qa.getD (v.pos - 1) ' ' = '-' then "Deletion" else "SNP") := by
  constructor
  · simp only [call_variants]
    rw [attachStats_map_pos, colScan_fst, List.map_map]
    have hfst : ((fun v => v.pos) ∘ fun p : Nat × Char × Char => mkVariant ra qa p.1 p.2.1 p.2.2)
        = (fun i => i + 1) ∘ Prod.fst := rfl
    rw [hfst, ← List.map_map]
    rw [List.enum_eq_enumFrom, enumFrom_zip_filter_fst ra qa 0 h, List.range_eq_range']
    simp only [Nat.sub_zero]
  · intro v hv
    obtain ⟨i, hi, hpos, href, halt, hvt, _, _⟩ := mem_call_variants_core ra qa h v hv
    have hip : v.pos - 1 = i := by omega
    rw [hip]
    exact ⟨href, halt, hvt⟩

/-- Witness for C1 at a concrete alignment with an insertion column and a
substitution column. -/
theorem variant_extraction_columns_witness :
    (call_variants ['A', '-', 'G'] ['A', 'C', 'C']).map Variant.pos = [2, 3] := by
  have hc := (variant_extraction_columns ['A', '-', 'G'] ['A', 'C', 'C'] rfl).1
  rw [hc]
  decide

/-- C4: every emitted variant's context windows are the clamped Python
slices `[max(0, i-10) : min(len, i+11)]` of the two rows, hence at most 21
characters long. -/
theorem context_window_bounds (ra qa : List Char) (h : ra.length = qa.length) :
    ∀ v ∈ call_variants ra qa,
      v.ctx_ref = pySlice ra (v.pos - 1 - 10) (min ra.length (v.pos - 1 + 11)) ∧
      v.ctx_query = pySlice qa (v.pos - 1 - 10) (min ra.length (v.pos - 1 + 11)) ∧
      v.ctx_ref.length ≤ 21 ∧ v.ctx_query.length ≤ 21 := by
  intro v hv
  obtain ⟨i, hi, hpos, _, _, _, hcr, hcq⟩ := mem_call_variants_core ra qa h v hv
  have hip : v.pos - 1 = i := by omega
  have hlen : ∀ s : List Char, (pySlice s (i - 10) (min ra.length (i + 11))).length ≤ 21 := by
    intro s
    simp only [pySlice, List.length_take, List.length_drop]
    have h1 : min ra.length (i + 11) ≤ i + 11 := Nat.min_le_right _ _
    omega
  rw [hip, hcr, hcq]
  exact ⟨rfl, rfl, hlen ra, hlen qa⟩

/-- Witness for C4 at a one-column alignment. -/
theorem context_window_bounds_witness :
    ((call_variants ['A'] ['G']).headD default).ctx_ref.length ≤ 21 :=
  (context_window_bounds ['A'] ['G'] rfl ((call_variants ['A'] ['G']).headD default)
    (by decide)).2.2.1

/-- C5: on an alignment of two identical gap-free rows, `call_variants`
returns the empty list and the aggregated counters are zero with ratio 0. -/
theorem identical_sequences_no_variants (s : List Char) (_hg : '-' ∉ s) :
    call_variants s s = [] ∧ (colScan s s ((s.zip s).enum)).2.1 = 0 ∧
    (colScan s s ((s.zip s).enum)).2.2 = 0 ∧ ratioOf 0 0 = 0 := by
  have hall : ∀ p ∈ (s.zip s).enum, (p.2.1 != p.2.2) = false := by
    intro p hp
    obtain ⟨i, rq⟩ := p
    have hz := mem_enum_pair (s.zip s) i rq hp
    have hmem : rq ∈ s.zip s := List.mem_iff_getElem?.2 ⟨i, hz⟩
    rw [zip_self] at hmem
    obtain ⟨c, _, hc⟩ := List.mem_map.1 hmem
    rw [← hc]
    simp
  have hfst : (colScan s s ((s.zip s).enum)).1 = [] := by
    rw [colScan_fst]
    have he : ((s.zip s).enum).filter (fun p => p.2.1 != p.2.2) = [] := by
      apply List.filter_eq_nil_iff.2
      intro p hp
      simp [hall p hp]
    rw [he]
    rfl
  refine ⟨?_, ?_, ?_, rfl⟩
  · simp only [call_variants]
    rw [hfst]
    rfl
  · rw [colScan_ts]
    apply List.countP_eq_zero.2
    intro p hp
    simp [hall p hp]
  · rw [colScan_tv]
    apply List.countP_eq_zero.2
    intro p hp
    simp [hall p hp]

/-- Witness for C5 at a concrete gap-free sequence. -/
theorem identical_sequences_no_variants_witness :
    call_variants ['A', 'C'] ['A', 'C'] = [] ∧
    (colScan ['A', 'C'] ['A', 'C'] ((['A', 'C'].zip ['A', 'C']).enum)).2.1 = 0 ∧
    (colScan ['A', 'C'] ['A', 'C'] ((['A', 'C'].zip ['A', 'C']).enum)).2.2 = 0 ∧
    ratioOf 0 0 = 0 :=
  identical_sequences_no_variants ['A', 'C'] (by decide)

lemma countP_bool_split {α : Type} (p q : α → Bool) (l : List α) :
    l.countP (fun a => p a && q a) + l.countP (fun a => p a && !q a) = l.countP p := by
  induction l with
  | nil => rfl
  | cons a t ih =>
    simp only [List.countP_cons]
    cases hp : p a <;> cases hq : q a <;> simp [hp, hq] <;> omega

lemma countP_call_variants (ra qa : List Char) (p : Variant → Bool)
    (hp : ∀ v s, p { v with stats := s } = p v) :
    (call_variants ra qa).countP p
      = ((ra.zip qa).enum).countP
          (fun x => (x.2.1 != x.2.2) && p (mkVariant ra qa x.1 x.2.1 x.2.2)) := by
  simp only [call_variants]
  rw [countP_attachStats _ _ _ p hp, colScan_fst, List.countP_map, List.countP_filter]
  apply List.countP_congr
  intro x _
  cases hb : (x.2.1 != x.2.2) <;> simp [Function.comp, hb]

lemma stats_of_head (ra qa : List Char) (v0 : Variant) (t : List Variant) (st : Stats)
    (hcv : call_variants ra qa = v0 :: t) (hst : v0.stats = some st) :
    st = { ts := (colScan ra qa ((ra.zip qa).enum)).2.1,
           tv := (colScan ra qa ((ra.zip qa).enum)).2.2,
           ratio := ratioOf (colScan ra qa ((ra.zip qa).enum)).2.1
                      (colScan ra qa ((ra.zip qa).enum)).2.2 } := by
  simp only [call_variants] at hcv
  rcases hT : (colScan ra qa ((ra.zip qa).enum)).1 with _ | ⟨w, rest⟩
  · rw [hT] at hcv
    exact absurd hcv (by simp [attachStats])
  · rw [hT] at hcv
    simp only [attachStats, List.cons.injEq] at hcv
    obtain ⟨hv0, _⟩ := hcv
    rw [← hv0] at hst
    exact (Option.some.inj hst).symm

/-- C2: the aggregated `ts` equals the number of emitted substitution
records whose base pair lies within `{A,G}` or within `{C,T}`, `tv` counts
the remaining substitutions, and together they count exactly the
substitution records — insertions and deletions are counted in neither. -/
theorem transition_transversion_counts (ra qa : List Char) (v0 : Variant) (t : List Variant)
    (st : Stats) (hcv : call_variants ra qa = v0 :: t) (hst : v0.stats = some st) :
    st.ts = (v0 :: t).countP
        (fun v => v.vtype == "SNP" && (inAG v.ref && inAG v.alt || inCT v.ref && inCT v.alt)) ∧
    st.tv = (v0 :: t).countP
        (fun v => v.vtype == "SNP" && !(inAG v.ref && inAG v.alt || inCT v.ref && inCT v.alt)) ∧
    st.ts + st.tv = (v0 :: t).countP (fun v => v.vtype == "SNP") := by
  have hstv := stats_of_head ra qa v0 t st hcv hst
  have hts : st.ts = (colScan ra qa ((ra.zip qa).enum)).2.1 := by rw [hstv]
  have htv : st.tv = (colScan ra qa ((ra.zip qa).enum)).2.2 := by rw [hstv]
  have h1 : st.ts = (v0 :: t).countP
      (fun v => v.vtype == "SNP" && (inAG v.ref && inAG v.alt || inCT v.ref && inCT v.alt)) := by
    rw [hts, ← hcv, countP_call_variants ra qa
      (fun v => v.vtype == "SNP" && (inAG v.ref && inAG v.alt || inCT v.ref && inCT v.alt))
      (fun v s => rfl), colScan_ts]
    rfl
  have h2 : st.tv = (v0 :: t).countP
      (fun v => v.vtype == "SNP" && !(inAG v.ref && inAG v.alt || inCT v.ref && inCT v.alt)) := by
    rw [htv, ← hcv, countP_call_variants ra qa
      (fun v => v.vtype == "SNP" && !(inAG v.ref && inAG v.alt || inCT v.ref && inCT v.alt))
      (fun v s => rfl), colScan_tv]
    rfl
  refine ⟨h1, h2, ?_⟩
  rw [h1, h2]
  exact countP_bool_split (fun v => v.vtype == "SNP")
    (fun v => inAG v.ref && inAG v.alt || inCT v.ref && inCT v.alt) (v0 :: t)

/-- First record of `call_variants ['A','C'] ['G','T']`: a transition
substitution carrying the attached statistics. -/
def sampleTsA : Variant :=
  { pos := 1, ref := 'A', alt := 'G', vtype := "SNP", ctx_ref := ['A', 'C'],
    ctx_query := ['G', 'T'], stats := some { ts := 2, tv := 0, ratio := 0 } }

/-- Second record of `call_variants ['A','C'] ['G','T']`: a transition
substitution with no statistics attached. -/
def sampleTsB : Variant :=
  { pos := 2, ref := 'C', alt := 'T', vtype := "SNP", ctx_ref := ['A', 'C'],
    ctx_query := ['G', 'T'], stats := none }

/-- Witness for C2 at a two-column alignment with two transitions. -/
theorem transition_transversion_counts_witness :
    (2 : Nat) = ([sampleTsA, sampleTsB].countP
        (fun v => v.vtype == "SNP" && (inAG v.ref && inAG v.alt || inCT v.ref && inCT v.alt))) ∧
    (0 : Nat) = ([sampleTsA, sampleTsB].countP
        (fun v => v.vtype == "SNP" && !(inAG v.ref && inAG v.alt || inCT v.ref && inCT v.alt))) ∧
    (2 : Nat) + 0 = ([sampleTsA, sampleTsB].countP (fun v => v.vtype == "SNP")) :=
  transition_transversion_counts ['A', 'C'] ['G', 'T'] sampleTsA [sampleTsB]
    { ts := 2, tv := 0, ratio := 0 } (by decide) rfl

lemma int_log_two_eq {x : ℚ} {e : ℤ} (hx : 0 < x)
    (h1 : (2 : ℚ) ^ e ≤ x) (h2 : x < (2 : ℚ) ^ (e + 1)) : Int.log 2 x = e := by
  have hle : e ≤ Int.log 2 x := (Int.zpow_le_iff_le_log (by norm_num) hx).1 h1
  have hlt : Int.log 2 x < e + 1 := (Int.lt_zpow_iff_log_lt (by norm_num) hx).1 h2
  omega

lemma roundHalfEven_close (y : ℚ) : |((roundHalfEven y : ℤ) : ℚ) - y| ≤ 1 / 2 := by
  unfold roundHalfEven
  have h1 : ((Int.floor y : ℤ) : ℚ) ≤ y := Int.floor_le y
  have h2 : y < Int.floor y + 1 := Int.lt_floor_add_one y
  by_cases c1 : y - Int.floor y < 1 / 2
  · rw [if_pos c1, abs_le]
    constructor <;> linarith
  · rw [if_neg c1]
    by_cases c2 : y - Int.floor y > 1 / 2
    · rw [if_pos c2, abs_le]
      constructor <;> push_cast <;> linarith
    · rw [if_neg c2]
      by_cases c3 : Int.floor y % 2 = 0
      · rw [if_pos c3, abs_le]
        constructor <;> linarith
      · rw [if_neg c3, abs_le]
        constructor <;> push_cast <;> linarith

lemma toDouble_third :
    toDouble (1 / 3 : ℚ) = 6004799503160661 / 18014398509481984 := by
  have hlog : Int.log 2 |(1 / 3 : ℚ)| = -2 := by
    rw [show |(1 / 3 : ℚ)| = 1 / 3 by norm_num]
    exact int_log_two_eq (by norm_num) (by norm_num) (by norm_num)
  unfold toDouble
  rw [if_neg (by norm_num), hlog,
    show ((52 : ℤ) - (-2)) = (54 : ℤ) by norm_num,
    show ((-2 : ℤ) - 52) = (-54 : ℤ) by norm_num,
    show (1 / 3 : ℚ) * 2 ^ (54 : ℤ) = 18014398509481984 / 3 by norm_num,
    show roundHalfEven (18014398509481984 / 3 : ℚ) = 6004799503160661 from by
      unfold roundHalfEven
      norm_num]
  norm_num

lemma pyRound2_third :
    pyRound2 (6004799503160661 / 18014398509481984 : ℚ)
      = 5944751508129055 / 18014398509481984 := by
  have hlog : Int.log 2 |(33 / 100 : ℚ)| = -2 := by
    rw [show |(33 / 100 : ℚ)| = 33 / 100 by norm_num]
    exact int_log_two_eq (by norm_num) (by norm_num) (by norm_num)
  unfold pyRound2
  rw [show (100 : ℚ) * (6004799503160661 / 18014398509481984)
        = 600479950316066100 / 18014398509481984 by norm_num,
    show roundHalfEven (600479950316066100 / 18014398509481984 : ℚ) = 33 from by
      unfold roundHalfEven
      norm_num,
    show ((33 : ℤ) : ℚ) / 100 = 33 / 100 by norm_num]
  unfold toDouble
  rw [if_neg (by norm_num), hlog,
    show ((52 : ℤ) - (-2)) = (54 : ℤ) by norm_num,
    show ((-2 : ℤ) - 52) = (-54 : ℤ) by norm_num,
    show (33 / 100 : ℚ) * 2 ^ (54 : ℤ) = 594475150812905472 / 100 by norm_num,
    show roundHalfEven (594475150812905472 / 100 : ℚ) = 5944751508129055 from by
      unfold roundHalfEven
      norm_num]
  norm_num

lemma ratioOf_one_three :
    ratioOf 1 3 = 5944751508129055 / 18014398509481984 := by
  unfold ratioOf
  rw [if_pos (by norm_num),
    show ((1 : Nat) : ℚ) / ((3 : Nat) : ℚ) = 1 / 3 by norm_num,
    toDouble_third, pyRound2_third]

/-- C3 counterexample: on the alignment `AAAA` / `GCTC` the scan counts
1 transition and 3 transversions, and the program reports
`round(1/3, 2) = 0.33` — exactly the double 5944751508129055/2^54 — which
differs from the exact quotient 1/3; so the reported ratio does not equal
transitions divided by transversions. -/
theorem ratio_not_exact_quotient :
    ((call_variants ['A', 'A', 'A', 'A'] ['G', 'C', 'T', 'C']).headD default).stats
      = some { ts := 1, tv := 3, ratio := 5944751508129055 / 18014398509481984 } ∧
    (5944751508129055 / 18014398509481984 : ℚ) ≠ (1 : ℚ) / 3 := by
  constructor
  · simp [call_variants, colScan, attachStats, mkVariant, pySlice, vType, isTransition,
      inAG, inCT, tsStep, tvStep, ratioOf_one_three, List.zip, List.enum]
  · norm_num

/-- C3 amended: when at least one variant was emitted, the reported ratio
is Python's `round(ts/tv, 2)`: the IEEE-754 double nearest the two-decimal
rounding of the double nearest `ts/tv` when `tv > 0`, and 0 when `tv = 0`;
in particular for `tv > 0` it is the double of some `k/100` with `k` within
one half of `100` times the double quotient. -/
theorem ratio_is_rounded_quotient (ra qa : List Char) (v0 : Variant) (t : List Variant)
    (st : Stats) (hcv : call_variants ra qa = v0 :: t) (hst : v0.stats = some st) :
    st.ratio = (if 0 < st.tv then pyRound2 (toDouble ((st.ts : ℚ) / (st.tv : ℚ))) else 0) ∧
    (0 < st.tv → ∃ k : ℤ, st.ratio = toDouble ((k : ℚ) / 100) ∧
      |(k : ℚ) - 100 * toDouble ((st.ts : ℚ) / (st.tv : ℚ))| ≤ 1 / 2) := by
  have hstv := stats_of_head ra qa v0 t st hcv hst
  rw [hstv]
  constructor
  · rfl
  · intro htv
    refine ⟨roundHalfEven (100 * toDouble
        (((colScan ra qa ((ra.zip qa).enum)).2.1 : ℚ)
          / ((colScan ra qa ((ra.zip qa).enum)).2.2 : ℚ))), ?_, roundHalfEven_close _⟩
    show ratioOf (colScan ra qa ((ra.zip qa).enum)).2.1 (colScan ra qa ((ra.zip qa).enum)).2.2
      = _
    unfold ratioOf pyRound2
    rw [if_pos htv]

/-- Witness for C3's amended theorem at the `AAAA` / `GCTC` alignment. -/
theorem ratio_is_rounded_quotient_witness :
    (5944751508129055 / 18014398509481984 : ℚ)
      = if 0 < (3 : Nat) then pyRound2 (toDouble (((1 : Nat) : ℚ) / ((3 : Nat) : ℚ))) else 0 :=
  (ratio_is_rounded_quotient ['A', 'A', 'A', 'A'] ['G', 'C', 'T', 'C']
    { pos := 1, ref := 'A', alt := 'G', vtype := "SNP", ctx_ref := ['A', 'A', 'A', 'A'],
      ctx_query := ['G', 'C', 'T', 'C'],
      stats := some { ts := 1, tv := 3, ratio := 5944751508129055 / 18014398509481984 } }
    [{ pos := 2, ref := 'A', alt := 'C', vtype := "SNP", ctx_ref := ['A', 'A', 'A', 'A'],
       ctx_query := ['G', 'C', 'T', 'C'], stats := none },
     { pos := 3, ref := 'A', alt := 'T', vtype := "SNP", ctx_ref := ['A', 'A', 'A', 'A'],
       ctx_query := ['G', 'C', 'T', 'C'], stats := none },
     { pos := 4, ref := 'A', alt := 'C', vtype := "SNP", ctx_ref := ['A', 'A', 'A', 'A'],
       ctx_query := ['G', 'C', 'T', 'C'], stats := none }]
    { ts := 1, tv := 3, ratio := 5944751508129055 / 18014398509481984 }
    (by simp [call_variants, colScan, attachStats, mkVariant, pySlice, vType, isTransition,
      inAG, inCT, tsStep, tvStep, ratioOf_one_three, List.zip, List.enum]) rfl).1

lemma colScan_stats_none (ra qa : List Char) (L : List (Nat × Char × Char)) :
    ∀ v ∈ (colScan ra qa L).1, v.stats = none := by
  intro v hv
  rw [colScan_fst] at hv
  obtain ⟨p, _, hp⟩ := List.mem_map.1 hv
  rw [← hp]
  rfl

lemma eraseStats_of_none (v : Variant) (h : v.stats = none) : eraseStats v = v := by
  cases v
  simp only [eraseStats]
  simp_all

lemma map_eraseStats_id (l : List Variant) (h : ∀ v ∈ l, v.stats = none) :
    l.map eraseStats = l := by
  induction l with
  | nil => rfl
  | cons a t ih =>
    rw [List.map_cons, eraseStats_of_none a (h a (by simp)),
      ih (fun v hv => h v (by simp [hv]))]

/-- C6: the statistics are attached, as an extra `stats` entry, to the first
record only (and only when at least one record exists); no other record
carries them, and no other field of any record differs from the record
built during the scan.  The attached numbers are the totals of the whole
scan, computed after all variants were extracted. -/
theorem stats_attached_to_first_only (ra qa : List Char) :
    ((call_variants ra qa).tail.all fun v => v.stats == none) = true ∧
    (call_variants ra qa).map eraseStats = (colScan ra qa ((ra.zip qa).enum)).1 ∧
    ((call_variants ra qa).head?.map fun v => v.stats)
      = ((call_variants ra qa).head?.map fun _ => some
          { ts := (colScan ra qa ((ra.zip qa).enum)).2.1,
            tv := (colScan ra qa ((ra.zip qa).enum)).2.2,
            ratio := ratioOf (colScan ra qa ((ra.zip qa).enum)).2.1
                       (colScan ra qa ((ra.zip qa).enum)).2.2 }) := by
  have hnone := colScan_stats_none ra qa ((ra.zip qa).enum)
  simp only [call_variants]
  rcases hT : (colScan ra qa ((ra.zip qa).enum)).1 with _ | ⟨w, rest⟩
  · exact ⟨rfl, rfl, rfl⟩
  · rw [hT] at hnone
    refine ⟨?_, ?_, ?_⟩
    · apply List.all_eq_true.2
      intro v hv
      have hv' : v ∈ w :: rest := List.mem_cons_of_mem w (by simpa [attachStats] using hv)
      simp [hnone v hv']
    · rw [attachStats_map_eraseStats]
      exact map_eraseStats_id _ hnone
    · simp [attachStats]

lemma firstFastaRecord_none_iff (lines : List String) :
    firstFastaRecord lines = none ↔ ∀ l ∈ lines, isHeader l = false := by
  unfold firstFastaRecord
  rcases hd : lines.dropWhile (fun l => !isHeader l) with _ | ⟨a, body⟩
  · constructor
    · intro _ l hl
      have h2 := List.dropWhile_eq_nil_iff.1 hd l hl
      simpa using h2
    · intro _
      rfl
  · constructor
    · intro h
      simp at h
    · intro hall
      have hnil : lines.dropWhile (fun l => !isHeader l) = [] :=
        List.dropWhile_eq_nil_iff.2 (fun x hx => by simp [hall x hx])
      rw [hd] at hnil
      exact absurd hnil (by simp)

/-- C7: `read_fasta` returns the uppercased first FASTA record and returns
`none` — instead of raising — exactly when the file is missing or
unreadable (`fs path = none`) or holds no record (no header line). -/
theorem read_fasta_contract (fs : String → Option (List String)) (path : String) :
    (read_fasta fs path = none ↔
      fs path = none ∨ ∃ lines, fs path = some lines ∧ ∀ l ∈ lines, isHeader l = false) ∧
    ∀ lines, fs path = some lines →
      read_fasta fs path = (firstFastaRecord lines).map pyUpper := by
  constructor
  · unfold read_fasta
    rcases hf : fs path with _ | lines
    · simp
    · simp [Option.map_eq_none', firstFastaRecord_none_iff]
  · intro lines hf
    unfold read_fasta
    rw [hf]

/-- Witness for C7 at a concrete three-line FASTA file. -/
theorem read_fasta_contract_witness :
    read_fasta (fun p => if p = "a.fa" then some [">h", "acg", "t"] else none) "a.fa"
      = (firstFastaRecord [">h", "acg", "t"]).map pyUpper ∧
    (firstFastaRecord [">h", "acg", "t"]).map pyUpper = some "ACGT" :=
  ⟨(read_fasta_contract (fun p => if p = "a.fa" then some [">h", "acg", "t"] else none)
      "a.fa").2 [">h", "acg", "t"] (by decide), by decide⟩

/-- C8: when both reads succeed but either sequence is empty, `run` fails
with the load-error message before any alignment work: the outcome is the
same for every aligner, and no variant list is produced. -/
theorem empty_sequence_rejected (fs : String → Option (List String)) (qf rf r q : String)
    (hr : read_fasta fs rf = some r) (hq : read_fasta fs qf = some q)
    (hempty : r = "" ∨ q = "") :
    ∀ aligner, runWorker aligner fs qf rf = RunResult.failure "Could not read sequences" ∧
      ∀ vs, runWorker aligner fs qf rf ≠ RunResult.success vs := by
  intro aligner
  have hfail : runWorker aligner fs qf rf = RunResult.failure "Could not read sequences" := by
    unfold runWorker
    rw [hr, hq]
    rcases hempty with he | he
    · rw [he]
      rfl
    · rw [he]
      dsimp only
      cases hre : r.isEmpty <;> rfl
  refine ⟨hfail, fun vs h => ?_⟩
  rw [hfail] at h
  exact RunResult.noConfusion h

/-- Witness for C8: the query file holds a header with an empty sequence. -/
theorem empty_sequence_rejected_witness :
    runWorker (fun _ _ => some none)
      (fun p => if p = "q.fa" then some [">q"]
        else if p = "ref.fa" then some [">r", "ACGT"] else none) "q.fa" "ref.fa"
      = RunResult.failure "Could not read sequences" :=
  (empty_sequence_rejected
    (fun p => if p = "q.fa" then some [">q"]
      else if p = "ref.fa" then some [">r", "ACGT"] else none)
    "q.fa" "ref.fa" "ACGT" "" (by decide) (by decide) (Or.inr rfl) (fun _ _ => some none)).1

/-- C9 counterexample: a missing query file and a query file holding an
empty record produce the very same failure value, so the failure does not
carry a tag distinguishing FileNotFound/InvalidFormat from InvalidInput. -/
theorem failure_kinds_conflated :
    runWorker (fun _ _ => some none)
      (fun p => if p = "ref.fa" then some [">r", "ACGT"] else none) "q.fa" "ref.fa"
      = runWorker (fun _ _ => some none)
        (fun p => if p = "ref.fa" then some [">r", "ACGT"]
          else if p = "q.fa" then some [">q"] else none) "q.fa" "ref.fa" ∧
    runWorker (fun _ _ => some none)
      (fun p => if p = "ref.fa" then some [">r", "ACGT"] else none) "q.fa" "ref.fa"
      = RunResult.failure "Could not read sequences" := by
  constructor <;> decide

/-- C9 amended: every invocation yields either a success carrying exactly
the extractor's full output for the alignment the aligner produced, or an
untagged failure whose message is one of the two generic log messages. -/
theorem run_all_or_nothing (aligner : String → String → Option (Option (List (List Char))))
    (fs : String → Option (List String)) (qf rf : String) :
    (∀ vs, runWorker aligner fs qf rf = RunResult.success vs →
      vs = call_variants_caught
        ((aligner (((read_fasta fs rf).getD "").take 50000)
          (((read_fasta fs qf).getD "").take 50000)).join)) ∧
    ∀ msg, runWorker aligner fs qf rf = RunResult.failure msg →
      msg = "Could not read sequences" ∨ msg = "Critical Error" := by
  unfold runWorker
  rcases hr : read_fasta fs rf with _ | r
  · refine ⟨fun vs h => absurd h (by simp), fun msg h => ?_⟩
    left
    injection h with h2
    exact h2.symm
  · rcases hq : read_fasta fs qf with _ | q
    · refine ⟨fun vs h => absurd h (by simp), fun msg h => ?_⟩
      left
      injection h with h2
      exact h2.symm
    · dsimp only
      by_cases he : (r.isEmpty || q.isEmpty) = true
      · rw [if_pos he]
        refine ⟨fun vs h => absurd h (by simp), fun msg h => ?_⟩
        left
        injection h with h2
        exact h2.symm
      · rw [if_neg he]
        rcases ha : aligner (r.take 50000) (q.take 50000) with _ | rendered
        · refine ⟨fun vs h => absurd h (by simp), fun msg h => ?_⟩
          right
          injection h with h2
          exact h2.symm
        · refine ⟨fun vs h => ?_, fun msg h => absurd h (by simp)⟩
          injection h with h2
          rw [← h2]
          dsimp only [Option.getD]
          rw [ha]
          rfl

/-- Witness for C9's amended theorem at a succeeding invocation. -/
theorem run_all_or_nothing_witness :
    call_variants_caught (some [[], ['A'], [], ['G']])
      = call_variants_caught
        (((fun _ _ => some (some [[], ['A'], [], ['G']]))
            (((read_fasta (fun _ => some [">h", "AG"]) "ref.fa").getD "").take 50000)
            (((read_fasta (fun _ => some [">h", "AG"]) "q.fa").getD "").take 50000)).join) :=
  (run_all_or_nothing (fun _ _ => some (some [[], ['A'], [], ['G']]))
    (fun _ => some [">h", "AG"]) "q.fa" "ref.fa").1
    (call_variants_caught (some [[], ['A'], [], ['G']])) (by decide)

/-- C10: the extractor is total — when the rendered alignment has fewer
than four lines no record is built and the empty list is returned, and a
rendering failure (the caught exception) also yields the empty accumulated
list. -/
theorem call_variants_total_guard (lines : List (List Char)) (h : lines.length < 4) :
    call_variants_lines lines = [] ∧ call_variants_caught none = [] := by
  constructor
  · unfold call_variants_lines
    rw [if_neg (by omega)]
  · rfl

/-- Witness for C10 at a two-line rendering. -/
theorem call_variants_total_guard_witness :
    call_variants_lines [[], ['A', 'C']] = [] ∧ call_variants_caught none = [] :=
  call_variants_total_guard [[], ['A', 'C']] (by decide)
